import Mathlib

/-!
Verification development for the chunk normalizer (`normalize_chunks` in
`graphblas/core/utils.py`) and the mask wrapper hierarchy (`grblas/mask.py`).

The Python function `normalize_chunks(chunks, shape)` is embedded shallowly:

* Python exceptions become an explicit error kind (`ErrKind`): `TypeError`
  becomes `typeKind`, `ValueError` becomes `valueKind`, and the unhandled
  `ZeroDivisionError` raised by `divmod(size, 0)` becomes `zeroDivKind`.
* A per-dimension chunk specification (`ChunkSpec`) mirrors the dynamic
  dispatch of the per-dimension loop body: `None`, a whole number (an
  `Integral`, or a `float` with `is_integer()` true, already coerced by
  `int(...)` to the `Int` it carries), a `Number` that is not a whole number
  (`othernum`, which falls through to the final `else` branch), a list/tuple
  of elements (`seq`), a numpy array (`arr`), or any other object (`badtype`).
* A numpy array is modelled by `NDArray`: its dtype-is-integer flag, its
  `ndim`, and its (flat, integer) contents, which the code reads only after
  the dtype and ndim checks have passed.
* The top-level `chunks` argument (`Chunks`) is a list/tuple of per-dimension
  specs, a scalar `Number` (broadcast to every dimension), a 1-d integer
  numpy array (turned into a list of numbers by `tolist()`), or anything
  else (`TypeError`).
* Python's `divmod` on integers is floor division, `Int.fdiv`/`Int.fmod`;
  `[chunk] * div` with a negative `div` is the empty list, hence
  `List.replicate div.toNat`.
-/

instance {ε α : Type} [DecidableEq ε] [DecidableEq α] : DecidableEq (Except ε α) := fun x y =>
  match x, y with
  | .ok a, .ok b =>
      if h : a = b then isTrue (by rw [h]) else isFalse (fun hh => by cases hh; exact h rfl)
  | .error a, .error b =>
      if h : a = b then isTrue (by rw [h]) else isFalse (fun hh => by cases hh; exact h rfl)
  | .ok _, .error _ => isFalse (fun hh => by cases hh)
  | .error _, .ok _ => isFalse (fun hh => by cases hh)

namespace GraphblasUtils

/-- Kinds of exception `normalize_chunks` can raise. -/
inductive ErrKind
  | typeKind
  | valueKind
  | zeroDivKind
  deriving DecidableEq, Repr

/-- One element of a per-dimension list/tuple chunk specification. -/
inductive ChunkElem
  | int (c : Int)
  | none
  | other
  deriving DecidableEq, Repr

/-- A numpy array as seen by the per-dimension `np.ndarray` branch:
its dtype's integer-ness, its number of dimensions, and its integer
contents (only read once the dtype and ndim checks have passed). -/
structure NDArray where
  intDtype : Bool
  ndim : Nat
  entries : List Int
  deriving DecidableEq, Repr

/-- A per-dimension chunk specification. -/
inductive ChunkSpec
  | none
  | num (c : Int)
  | othernum
  | seq (l : List ChunkElem)
  | arr (a : NDArray)
  | badtype
  deriving DecidableEq, Repr

/-- A Python `Number` scalar: either a whole number (an `Integral` or an
integral `float`, coerced to the carried `Int`) or not. -/
inductive PyNumber
  | whole (n : Int)
  | nonwhole
  deriving DecidableEq, Repr

/-- The per-dimension spec a broadcast scalar turns into. -/
def specOfNum : PyNumber → ChunkSpec
  | .whole n => .num n
  | .nonwhole => .othernum

/-- The top-level `chunks` argument. -/
inductive Chunks
  | ofList (l : List ChunkSpec)
  | ofNum (c : PyNumber)
  | ofArray (l : List Int)
  | badtype
  deriving DecidableEq, Repr

/-- The element loop of the list/tuple branch of `normalize_chunks`:
walks the elements in order, accumulating `cur_chunks` (`cur`) and the
optional placeholder index `none_index` (`ni`).  A negative whole number
raises `ValueError`; a second `None` raises `TypeError`; a `None` appends
`0` and records the current position; any other element raises
`TypeError`. -/
def processSeq : List ChunkElem → List Int → Option Nat → Except ErrKind (List Int × Option Nat)
  | [], cur, ni => .ok (cur, ni)
  | .int c :: rest, cur, ni =>
      if c < 0 then .error .valueKind
      else processSeq rest (cur ++ [c]) ni
  | .none :: rest, cur, ni =>
      match ni with
      | some _ => .error .typeKind
      | Option.none => processSeq rest (cur ++ [0]) (some cur.length)
  | .other :: _, _, _ => .error .typeKind

/-- The body of the per-dimension loop of `normalize_chunks`. -/
def normalizeDim (size : Int) (chunk : ChunkSpec) : Except ErrKind (List Int) :=
  match chunk with
  | .none => .ok [size]
  | .num c =>
      if c < 0 then .error .valueKind
      else if c = 0 then .error .zeroDivKind
      else
        let d := size.fdiv c
        let m := size.fmod c
        .ok (List.replicate d.toNat c ++ if m = 0 then [] else [m])
  | .othernum => .error .typeKind
  | .seq l =>
      match processSeq l [] Option.none with
      | .error e => .error e
      | .ok (cur, Option.none) => .ok cur
      | .ok (cur, some i) =>
          let fill := size - cur.sum
          if fill < 0 then .error .valueKind
          else .ok (cur.set i fill)
  | .arr a =>
      if ¬ a.intDtype then .error .typeKind
      else if a.ndim ≠ 1 then .error .typeKind
      else if a.entries.any (fun x => decide (x < 0)) then .error .valueKind
      else .ok a.entries
  | .badtype => .error .typeKind

/-- The `for size, chunk in zip(shape, chunks)` loop: processes the
dimensions in order and stops at the first error, like the raising loop. -/
def normalizeDims : List Int → List ChunkSpec → Except ErrKind (List (List Int))
  | [], _ => .ok []
  | _ :: _, [] => .ok []
  | s :: ss, c :: cs =>
      match normalizeDim s c with
      | .error e => .error e
      | .ok cur =>
          match normalizeDims ss cs with
          | .error e => .error e
          | .ok rest => .ok (cur :: rest)

/-- `normalize_chunks` after the top-level dispatch: the length check
against `shape`, then the per-dimension loop. -/
def normalizeChunksSeq (chunks : List ChunkSpec) (shape : List Int) :
    Except ErrKind (List (List Int)) :=
  if chunks.length ≠ shape.length then .error .valueKind
  else normalizeDims shape chunks

/-- `normalize_chunks(chunks, shape)`: a list/tuple is used as is, a scalar
`Number` is broadcast to one copy per dimension, a (1-d integer) numpy array
is converted by `tolist()`, anything else raises `TypeError`. -/
def normalize_chunks (chunks : Chunks) (shape : List Int) :
    Except ErrKind (List (List Int)) :=
  match chunks with
  | .ofList l => normalizeChunksSeq l shape
  | .ofNum c => normalizeChunksSeq (List.replicate shape.length (specOfNum c)) shape
  | .ofArray l => normalizeChunksSeq (l.map ChunkSpec.num) shape
  | .badtype => .error .typeKind

end GraphblasUtils

namespace GrblasMask

/-- The four concrete mask classes of `grblas/mask.py` (the ones defining
`__invert__`). -/
inductive MaskClass
  | StructuralMask
  | ValueMask
  | ComplementedStructuralMask
  | ComplementedValueMask
  deriving DecidableEq, Repr

/-- The `complement` class attribute. -/
def MaskClass.complement : MaskClass → Bool
  | .ComplementedStructuralMask => true
  | .ComplementedValueMask => true
  | _ => false

/-- The `structure` class attribute. -/
def MaskClass.structureFlag : MaskClass → Bool
  | .StructuralMask => true
  | .ComplementedStructuralMask => true
  | _ => false

/-- The `value` class attribute. -/
def MaskClass.valueFlag : MaskClass → Bool
  | .ValueMask => true
  | .ComplementedValueMask => true
  | _ => false

/-- Which class `__invert__` constructs, per class. -/
def MaskClass.invert : MaskClass → MaskClass
  | .StructuralMask => .ComplementedStructuralMask
  | .ValueMask => .ComplementedValueMask
  | .ComplementedStructuralMask => .StructuralMask
  | .ComplementedValueMask => .ValueMask

/-- A mask wrapper object: its concrete class and the wrapped underlying
mask object (`self.mask`), of an arbitrary type `α`. -/
structure Mask (α : Type) where
  cls : MaskClass
  mask : α
  deriving DecidableEq, Repr

/-- `__invert__`: each class wraps the same underlying `self.mask` in its
counterpart class. -/
def Mask.invert {α : Type} (m : Mask α) : Mask α :=
  { cls := m.cls.invert, mask := m.mask }

end GrblasMask

namespace GraphblasUtils

/-- Walking a run of non-negative whole-number elements just appends them to
the accumulator. -/
theorem processSeq_ints (ints : List Int) (rest : List ChunkElem) (cur : List Int)
    (ni : Option Nat) (h : ∀ x ∈ ints, 0 ≤ x) :
    processSeq (ints.map ChunkElem.int ++ rest) cur ni = processSeq rest (cur ++ ints) ni := by
  induction ints generalizing cur with
  | nil => simp
  | cons a t ih =>
      have ha : ¬ a < 0 := not_lt.mpr (h a (by simp))
      have ht : ∀ x ∈ t, 0 ≤ x := fun x hx => h x (by simp [hx])
      simp only [List.map_cons, List.cons_append, processSeq, ha, if_false]
      rw [List.append_eq, ih _ ht]
      simp

/-- Once the placeholder index is recorded (pointing at a `0` already in the
accumulator), a successful walk keeps it recorded and keeps that `0`. -/
theorem processSeq_some_inv (l : List ChunkElem) (cur : List Int) (i : Nat)
    (cur' : List Int) (ni' : Option Nat) (hi : i < cur.length) (h0 : cur[i]? = some 0)
    (h : processSeq l cur (some i) = .ok (cur', ni')) :
    ni' = some i ∧ i < cur'.length ∧ cur'[i]? = some 0 := by
  induction l generalizing cur with
  | nil =>
      simp only [processSeq] at h
      cases h
      exact ⟨rfl, hi, h0⟩
  | cons e t ih =>
      match e with
      | .int c =>
          simp only [processSeq] at h
          by_cases hc : c < 0
          · simp [hc] at h
          · simp only [hc, if_false] at h
            exact ih (cur ++ [c]) (by simp; omega)
              (by rw [List.getElem?_append_left hi]; exact h0) h
      | .none => simp [processSeq] at h
      | .other => simp [processSeq] at h

/-- If the elements contain a placeholder and the walk succeeds starting with
no placeholder recorded, it ends with one recorded, pointing at a `0` entry. -/
theorem processSeq_none_mem (l : List ChunkElem) (cur : List Int) (cur' : List Int)
    (ni' : Option Nat) (hmem : ChunkElem.none ∈ l)
    (h : processSeq l cur Option.none = .ok (cur', ni')) :
    ∃ i, ni' = some i ∧ i < cur'.length ∧ cur'[i]? = some 0 := by
  induction l generalizing cur with
  | nil => cases hmem
  | cons e t ih =>
      match e with
      | .int c =>
          have hmem' : ChunkElem.none ∈ t := by
            cases hmem with
            | tail _ hm => exact hm
          simp only [processSeq] at h
          by_cases hc : c < 0
          · simp [hc] at h
          · simp only [hc, if_false] at h
            exact ih (cur ++ [c]) hmem' h
      | .none =>
          simp only [processSeq] at h
          refine ⟨cur.length, processSeq_some_inv t (cur ++ [0]) cur.length cur' ni' ?_ ?_ h⟩
          · simp
          · simp
      | .other => simp [processSeq] at h

/-- Setting a position that holds `0` adds the new value to the sum. -/
theorem sum_set_zero (l : List Int) (i : Nat) (a : Int) (h : l[i]? = some 0) :
    (l.set i a).sum = l.sum + a := by
  induction l generalizing i with
  | nil => simp at h
  | cons x t ih =>
      cases i with
      | zero =>
          simp only [List.getElem?_cons_zero, Option.some_inj] at h
          simp [h]
          ring
      | succ j =>
          simp only [List.getElem?_cons_succ] at h
          simp only [List.set, List.sum_cons, ih j h]
          ring

/-- Setting the position right after `pre` in `pre ++ x :: post`. -/
theorem set_append_length (pre post : List Int) (x a : Int) :
    (pre ++ x :: post).set pre.length a = pre ++ a :: post := by
  induction pre with
  | nil => simp
  | cons y t ih => simp [List.set, ih]

/-- Indexing a successful run of the per-dimension loop: each output entry is
the successful `normalizeDim` of the matching size and spec. -/
theorem normalizeDims_ok_index (shape : List Int) (specs : List ChunkSpec)
    (res : List (List Int)) (h : normalizeDims shape specs = .ok res) (i : Nat)
    (s : Int) (c : ChunkSpec) (hs : shape[i]? = some s) (hc : specs[i]? = some c) :
    ∃ out, res[i]? = some out ∧ normalizeDim s c = .ok out := by
  induction shape generalizing specs res i with
  | nil => simp at hs
  | cons s0 ss ih =>
      match specs with
      | [] => simp at hc
      | c0 :: cs =>
          simp only [normalizeDims] at h
          match hd : normalizeDim s0 c0 with
          | .error e => rw [hd] at h; cases h
          | .ok cur =>
              rw [hd] at h
              match ht : normalizeDims ss cs with
              | .error e => rw [ht] at h; cases h
              | .ok rest =>
                  rw [ht] at h
                  cases h
                  cases i with
                  | zero =>
                      simp only [List.getElem?_cons_zero, Option.some_inj] at hs hc
                      subst hs
                      subst hc
                      exact ⟨cur, by simp, hd⟩
                  | succ j =>
                      simp only [List.getElem?_cons_succ] at hs hc ⊢
                      exact ih cs rest ht j hs hc

/-- For the spec kinds that rebuild the dimension exactly — absent, a
whole-number chunk size, or a sequence holding a placeholder — a successful
`normalizeDim` output sums to the dimension size. -/
theorem normalizeDim_sum (s : Int) (c : ChunkSpec) (out : List Int) (hs : 0 ≤ s)
    (hkind : c = ChunkSpec.none ∨ (∃ k, c = ChunkSpec.num k) ∨
      ∃ l, c = ChunkSpec.seq l ∧ ChunkElem.none ∈ l)
    (h : normalizeDim s c = .ok out) : out.sum = s := by
  rcases hkind with h1 | ⟨k, h2⟩ | ⟨l, h3, hmem⟩
  · subst h1
    simp only [normalizeDim] at h
    cases h
    simp
  · subst h2
    simp only [normalizeDim] at h
    by_cases hneg : k < 0
    · simp [hneg] at h
    · by_cases hz : k = 0
      · simp [hneg, hz] at h
      · simp only [hneg, hz, if_false] at h
        have hk : 0 < k := lt_of_le_of_ne (not_lt.mp hneg) (Ne.symm hz)
        have hdiv : 0 ≤ s.fdiv k := Int.fdiv_nonneg hs hk.le
        have hfm := Int.fdiv_add_fmod s k
        by_cases hm : s.fmod k = 0
        · rw [if_pos hm] at h
          cases h
          simp only [List.append_nil, List.sum_replicate, nsmul_eq_mul,
            Int.toNat_of_nonneg hdiv]
          linarith [mul_comm (s.fdiv k) k]
        · rw [if_neg hm] at h
          cases h
          simp only [List.sum_append, List.sum_replicate, nsmul_eq_mul,
            Int.toNat_of_nonneg hdiv, List.sum_cons, List.sum_nil, add_zero]
          linarith [mul_comm (s.fdiv k) k]
  · subst h3
    simp only [normalizeDim] at h
    cases hp : processSeq l [] Option.none with
    | error e => rw [hp] at h; cases h
    | ok p =>
        obtain ⟨cur, ni⟩ := p
        rw [hp] at h
        obtain ⟨i, hni, hlt, h0⟩ := processSeq_none_mem l [] cur ni hmem hp
        subst hni
        by_cases hf : s - cur.sum < 0
        · simp [hf] at h
        · simp only [hf, if_false] at h
          cases h
          rw [sum_set_zero cur i _ h0]
          ring

/-- `normalize_chunks` on a single dimension is the per-dimension body,
wrapped. -/
theorem normalize_chunks_single (s : Int) (c : ChunkSpec) :
    normalize_chunks (.ofList [c]) [s] =
      match normalizeDim s c with
      | .error e => .error e
      | .ok out => .ok [out] := by
  simp only [normalize_chunks, normalizeChunksSeq, List.length_cons, List.length_nil,
    ne_eq, if_false]
  cases hd : normalizeDim s c with
  | error e => simp [normalizeDims, hd]
  | ok out => simp [normalizeDims, hd]

/-- A dimension given as explicit whole numbers around one placeholder:
the placeholder resolves to the dimension size minus the sum of the other
entries, or `ValueError` when that is negative. -/
theorem normalizeDim_one_placeholder (s : Int) (pre post : List Int)
    (hpre : ∀ x ∈ pre, 0 ≤ x) (hpost : ∀ x ∈ post, 0 ≤ x) :
    normalizeDim s
        (.seq (pre.map ChunkElem.int ++ ChunkElem.none :: post.map ChunkElem.int)) =
      if s - (pre.sum + post.sum) < 0 then .error .valueKind
      else .ok (pre ++ (s - (pre.sum + post.sum)) :: post) := by
  have h1 : processSeq (pre.map ChunkElem.int ++ ChunkElem.none :: post.map ChunkElem.int)
      [] Option.none = .ok (pre ++ 0 :: post, some pre.length) := by
    rw [processSeq_ints pre _ [] Option.none hpre]
    simp only [List.nil_append, processSeq]
    have h2 := processSeq_ints post [] (pre ++ [0]) (some pre.length) hpost
    simp only [List.append_nil] at h2
    rw [h2]
    simp [processSeq]
  simp only [normalizeDim, h1]
  have hsum : (pre ++ 0 :: post).sum = pre.sum + post.sum := by simp
  rw [hsum, set_append_length]

/-- C5: a scalar chunks argument gives the same result as the length-D
sequence holding that scalar once per dimension; in the code the scalar is
broadcast to exactly that tuple before processing. -/
theorem normalize_chunks_scalar_broadcast (c : PyNumber) (shape : List Int) :
    normalize_chunks (.ofNum c) shape =
      normalize_chunks (.ofList (List.replicate shape.length (specOfNum c))) shape := rfl

/-- C7: a dimension whose spec is absent (`None`) comes out as the single
chunk holding the full dimension size. -/
theorem normalize_chunks_absent_dim (specs : List ChunkSpec) (shape : List Int)
    (res : List (List Int)) (h : normalize_chunks (.ofList specs) shape = .ok res)
    (i : Nat) (s : Int) (hs : shape[i]? = some s)
    (hc : specs[i]? = some ChunkSpec.none) :
    res[i]? = some [s] := by
  simp only [normalize_chunks, normalizeChunksSeq] at h
  by_cases hlen : specs.length ≠ shape.length
  · rw [if_pos hlen] at h
    cases h
  · rw [if_neg hlen] at h
    obtain ⟨out, hout, hdim⟩ := normalizeDims_ok_index shape specs res h i s _ hs hc
    simp only [normalizeDim] at hdim
    cases hdim
    exact hout

/-- C7 witness: dimension 0 of `normalize_chunks([None, (5, 15)], (10, 20))`
is the single chunk `[10]`. -/
theorem normalize_chunks_absent_dim_app :
    ([[10], [5, 15]] : List (List Int))[0]? = some [10] :=
  normalize_chunks_absent_dim
    [ChunkSpec.none, ChunkSpec.seq [ChunkElem.int 5, ChunkElem.int 15]] [10, 20]
    [[10], [5, 15]] (by decide) 0 10 (by decide) (by decide)

/-- C9: a dimension given as a list/tuple of non-negative whole numbers with
no placeholder is passed through exactly, whatever the dimension size `s` is —
there is no check that the entries sum to `s`. -/
theorem normalize_chunks_explicit_list (s : Int) (l : List Int)
    (h : ∀ x ∈ l, 0 ≤ x) :
    normalize_chunks (.ofList [ChunkSpec.seq (l.map ChunkElem.int)]) [s] = .ok [l] := by
  rw [normalize_chunks_single]
  have h1 : processSeq (l.map ChunkElem.int) [] Option.none = .ok (l, Option.none) := by
    have h2 := processSeq_ints l [] [] Option.none h
    simpa using h2
  simp [normalizeDim, h1]

/-- C9 witness: `normalize_chunks([[3, 3]], (10,))` is accepted and returns
`[[3, 3]]` although the entries sum to 6, not 10. -/
theorem normalize_chunks_explicit_list_app :
    normalize_chunks (.ofList [ChunkSpec.seq [ChunkElem.int 3, ChunkElem.int 3]]) [10] =
      .ok [[3, 3]] :=
  normalize_chunks_explicit_list 10 [3, 3] (by decide)

/-- C2 (code bug): the check guarding the whole-number branch tests
`chunk < 0` only, so a chunk size of `0` reaches `divmod(size, 0)` and
raises `ZeroDivisionError`, not the `ValueError` the spec states; a negative
chunk size does raise `ValueError`. -/
theorem normalize_chunks_scalar_zero_bug :
    normalize_chunks (.ofNum (.whole 0)) [10] = .error .zeroDivKind ∧
    normalize_chunks (.ofNum (.whole (-3))) [10] = .error .valueKind ∧
    ErrKind.zeroDivKind ≠ ErrKind.valueKind := by decide

/-- C1 (amended): on a successful call, a dimension whose spec is absent, a
whole-number chunk size, or a nested sequence holding a placeholder has
output partition sizes summing exactly to that dimension's size.  (A nested
sequence without a placeholder, or a numpy array, is passed through with no
sum check — see the counterexample.) -/
theorem normalize_chunks_sum_eq_size (specs : List ChunkSpec) (shape : List Int)
    (res : List (List Int)) (h : normalize_chunks (.ofList specs) shape = .ok res)
    (i : Nat) (s : Int) (c : ChunkSpec) (out : List Int)
    (hs : shape[i]? = some s) (hc : specs[i]? = some c) (hout : res[i]? = some out)
    (hpos : 0 ≤ s)
    (hkind : c = ChunkSpec.none ∨ (∃ k, c = ChunkSpec.num k) ∨
      ∃ l, c = ChunkSpec.seq l ∧ ChunkElem.none ∈ l) :
    out.sum = s := by
  simp only [normalize_chunks, normalizeChunksSeq] at h
  by_cases hlen : specs.length ≠ shape.length
  · rw [if_pos hlen] at h
    cases h
  · rw [if_neg hlen] at h
    obtain ⟨out', hout', hdim⟩ := normalizeDims_ok_index shape specs res h i s c hs hc
    rw [hout, Option.some_inj] at hout'
    subst hout'
    exact normalizeDim_sum s c out hpos hkind hdim

/-- C1 witness: in `normalize_chunks([None, 10, (5, None)], (7, 25, 12))`,
dimension 2's output `[5, 7]` sums to the dimension size 12. -/
theorem normalize_chunks_sum_eq_size_app : ([5, 7] : List Int).sum = 12 :=
  normalize_chunks_sum_eq_size
    [ChunkSpec.none, ChunkSpec.num 10, ChunkSpec.seq [ChunkElem.int 5, ChunkElem.none]]
    [7, 25, 12] [[7], [10, 10, 5], [5, 7]] (by decide) 2 12
    (ChunkSpec.seq [ChunkElem.int 5, ChunkElem.none]) [5, 7]
    (by decide) (by decide) (by decide) (by decide)
    (Or.inr (Or.inr ⟨[ChunkElem.int 5, ChunkElem.none], rfl, by decide⟩))

/-- C1 counterexample: `normalize_chunks([[3, 3]], (10,))` is accepted, yet
the output partition sizes of dimension 0 sum to 6, not to the dimension
size 10. -/
theorem normalize_chunks_sum_counterexample :
    normalize_chunks (.ofList [ChunkSpec.seq [ChunkElem.int 3, ChunkElem.int 3]]) [10] =
      .ok [[3, 3]] ∧ ([3, 3] : List Int).sum ≠ 10 := by decide

/-- C3: with exactly one placeholder among non-negative whole numbers, the
placeholder resolves to the dimension size minus the sum of the other
entries, and a negative resolved value raises `ValueError`; moreover
`normalize_chunks((5, (5, None)), (10, 20))` is `[(5, 5), (5, 15)]`. -/
theorem normalize_chunks_placeholder (s : Int) (pre post : List Int)
    (hpre : ∀ x ∈ pre, 0 ≤ x) (hpost : ∀ x ∈ post, 0 ≤ x) :
    (normalize_chunks
        (.ofList [ChunkSpec.seq
          (pre.map ChunkElem.int ++ ChunkElem.none :: post.map ChunkElem.int)]) [s] =
      if s - (pre.sum + post.sum) < 0 then .error .valueKind
      else .ok [pre ++ (s - (pre.sum + post.sum)) :: post]) ∧
    normalize_chunks
        (.ofList [ChunkSpec.num 5, ChunkSpec.seq [ChunkElem.int 5, ChunkElem.none]])
        [10, 20] = .ok [[5, 5], [5, 15]] := by
  constructor
  · rw [normalize_chunks_single, normalizeDim_one_placeholder s pre post hpre hpost]
    by_cases hf : s - (pre.sum + post.sum) < 0
    · rw [if_pos hf, if_pos hf]
    · rw [if_neg hf, if_neg hf]
  · decide

/-- C3 witness: `normalize_chunks([(5, None)], (20,))` resolves the
placeholder to `20 - 5 = 15`. -/
theorem normalize_chunks_placeholder_app :
    normalize_chunks (.ofList [ChunkSpec.seq [ChunkElem.int 5, ChunkElem.none]]) [20] =
      .ok [[5, 15]] := by
  have h := (normalize_chunks_placeholder 20 [5] [] (by decide) (by decide)).1
  simpa using h

/-- C4: a whole-number chunk size `c > 0` on a dimension of size `s ≥ 0`
yields `floor(s/c)` chunks of size `c` plus, exactly when `s mod c ≠ 0`, a
final chunk of size `s mod c`; and `normalize_chunks(10, (10, 20))` is
`[(10,), (10, 10)]`. -/
theorem normalize_chunks_whole_number (s c : Int) (hs : 0 ≤ s) (hc : 0 < c) :
    (normalize_chunks (.ofList [ChunkSpec.num c]) [s] =
        .ok [List.replicate (s.fdiv c).toNat c ++
          if s.fmod c = 0 then [] else [s.fmod c]] ∧
      ((s.fdiv c).toNat : Int) = s.fdiv c) ∧
    normalize_chunks (.ofNum (.whole 10)) [10, 20] = .ok [[10], [10, 10]] := by
  refine ⟨⟨?_, Int.toNat_of_nonneg (Int.fdiv_nonneg hs hc.le)⟩, by decide⟩
  rw [normalize_chunks_single]
  have h1 : ¬ c < 0 := not_lt.mpr hc.le
  have h2 : ¬ c = 0 := hc.ne'
  simp [normalizeDim, h1, h2]

/-- C4 witness: size 23 with chunk size 7 gives three chunks of 7 and a
final remainder chunk of 2. -/
theorem normalize_chunks_whole_number_app :
    normalize_chunks (.ofList [ChunkSpec.num 7]) [23] = .ok [[7, 7, 7, 2]] := by
  have h := (normalize_chunks_whole_number 23 7 (by decide) (by decide)).1.1
  rw [h]
  decide

/-- C6 (amended): a dimension spec holding two placeholders raises
`TypeError`, provided every entry before the second placeholder is a
non-negative whole number or the first placeholder (an invalid entry earlier
in the sequence raises its own error first). -/
theorem normalize_chunks_two_placeholders (s : Int) (pre mid : List Int)
    (rest : List ChunkElem) (hpre : ∀ x ∈ pre, 0 ≤ x) (hmid : ∀ x ∈ mid, 0 ≤ x) :
    normalize_chunks
        (.ofList [ChunkSpec.seq (pre.map ChunkElem.int ++
          ChunkElem.none :: (mid.map ChunkElem.int ++ ChunkElem.none :: rest))]) [s] =
      .error .typeKind := by
  rw [normalize_chunks_single]
  have h1 : processSeq (pre.map ChunkElem.int ++
      ChunkElem.none :: (mid.map ChunkElem.int ++ ChunkElem.none :: rest))
      [] Option.none = .error .typeKind := by
    rw [processSeq_ints pre _ [] Option.none hpre]
    simp only [List.nil_append, processSeq]
    rw [processSeq_ints mid _ (pre ++ [0]) (some pre.length) hmid]
    simp [processSeq]
  simp [normalizeDim, h1]

/-- C6 witness: `normalize_chunks([(2, None, None)], (10,))` raises
`TypeError`. -/
theorem normalize_chunks_two_placeholders_app :
    normalize_chunks
        (.ofList [ChunkSpec.seq [ChunkElem.int 2, ChunkElem.none, ChunkElem.none]]) [10] =
      .error .typeKind := by
  have h := normalize_chunks_two_placeholders 10 [2] [] [] (by decide) (by decide)
  simpa using h

/-- C6 counterexample: `normalize_chunks([(-1, None, None)], (10,))` has two
placeholders in one dimension's nested spec, yet it raises `ValueError` (for
the negative entry hit first), not `TypeError`. -/
theorem normalize_chunks_two_placeholders_counterexample :
    normalize_chunks
        (.ofList [ChunkSpec.seq [ChunkElem.int (-1), ChunkElem.none, ChunkElem.none]])
        [10] = .error .valueKind ∧
    normalize_chunks
        (.ofList [ChunkSpec.seq [ChunkElem.int (-1), ChunkElem.none, ChunkElem.none]])
        [10] ≠ .error .typeKind := by decide

/-- C8: a numpy-array dimension spec raises `TypeError` when the array is
not of integer dtype or not one-dimensional, raises `ValueError` when some
entry is negative, and otherwise its entries are used directly, in order, as
the dimension's partition list. -/
theorem normalize_chunks_nparray_dim (s : Int) (a : NDArray) :
    ((¬ a.intDtype = true ∨ a.ndim ≠ 1) →
      normalize_chunks (.ofList [ChunkSpec.arr a]) [s] = .error .typeKind) ∧
    (a.intDtype = true → a.ndim = 1 → (∃ x ∈ a.entries, x < 0) →
      normalize_chunks (.ofList [ChunkSpec.arr a]) [s] = .error .valueKind) ∧
    (a.intDtype = true → a.ndim = 1 → (∀ x ∈ a.entries, 0 ≤ x) →
      normalize_chunks (.ofList [ChunkSpec.arr a]) [s] = .ok [a.entries]) := by
  refine ⟨?_, ?_, ?_⟩
  · rintro (hd | hn)
    · rw [normalize_chunks_single]
      simp [normalizeDim, hd]
    · rw [normalize_chunks_single]
      by_cases hd : a.intDtype
      · simp [normalizeDim, hd, hn]
      · simp [normalizeDim, hd]
  · intro hd hn hneg
    rw [normalize_chunks_single]
    have hany : a.entries.any (fun x => decide (x < 0)) = true := by
      obtain ⟨x, hx, hxneg⟩ := hneg
      simp only [List.any_eq_true, decide_eq_true_eq]
      exact ⟨x, hx, hxneg⟩
    simp [normalizeDim, hd, hn, hany]
  · intro hd hn hnonneg
    rw [normalize_chunks_single]
    have hany : a.entries.any (fun x => decide (x < 0)) = false := by
      simp only [List.any_eq_false, decide_eq_true_eq]
      intro x hx
      exact not_lt.mpr (hnonneg x hx)
    simp [normalizeDim, hd, hn, hany]

/-- C8 witness: a 1-d integer array with entries `[2, 5]` is used directly
as the partition list. -/
theorem normalize_chunks_nparray_dim_app :
    normalize_chunks (.ofList [ChunkSpec.arr ⟨true, 1, [2, 5]⟩]) [7] = .ok [[2, 5]] :=
  (normalize_chunks_nparray_dim 7 ⟨true, 1, [2, 5]⟩).2.2 rfl rfl (by decide)

end GraphblasUtils

namespace GrblasMask

/-- C10: `__invert__` on each of the four mask variants flips the
`complement` flag, keeps the `structure` and `value` flags, wraps the same
underlying mask object, and applied twice gives back a mask of the original
class around the same underlying object. -/
theorem mask_invert_involution {α : Type} (m : Mask α) :
    m.invert.cls.complement = !m.cls.complement ∧
    m.invert.cls.structureFlag = m.cls.structureFlag ∧
    m.invert.cls.valueFlag = m.cls.valueFlag ∧
    m.invert.mask = m.mask ∧
    m.invert.invert = m := by
  obtain ⟨cls, mk⟩ := m
  cases cls <;>
    simp [Mask.invert, MaskClass.invert, MaskClass.complement,
      MaskClass.structureFlag, MaskClass.valueFlag]

end GrblasMask

namespace GraphblasUtils

end GraphblasUtils
